import Mathlib

/-!
Verification of the reconciliation core of the seller-apis repository.

The repository synchronizes a supplier feed of watch inventory into two
marketplace accounts.  The testable core consists of:

* price_conversion (seller.py): normalizes a currency string to a digit string;
* divide (seller.py): chunks a list into fixed-size pieces;
* create_stocks (seller.py and market.py): merges supplier rows with the
  marketplace identifier list into stock-update records, destructively
  consuming the identifier list;
* create_prices (seller.py and market.py): emits price-update records for
  feed rows whose identifier is known to the marketplace.

Python strings are modelled as Lean String, Python ints as Int, Python lists
as List, and a raised ValueError as the error branch of Except.
-/

set_option maxHeartbeats 1000000

namespace SellerApis

/-- Error raised by Python builtins modelled here: both a failing int() call
and a zero step handed to range() raise ValueError. -/
inductive PyErr where
  | valueError
deriving DecidableEq, Repr

/-- One supplier feed row, holding the string values of the fields the
reconcilers read: kod models str(watch.get("Kod")), kolichestvo the quantity
string, tsena the price string. -/
structure WatchRow where
  kod : String
  kolichestvo : String
  tsena : String
deriving DecidableEq, Repr

/-! ### Python int() on strings -/

/-- Value of an ASCII digit character. -/
def digitVal (c : Char) : Nat := c.toNat - 48

/-- Continue parsing digits after the first one, allowing a single underscore
between two digits as Python int() does; accumulates the value so far. -/
def digitsRest (acc : Nat) : List Char → Option Nat
  | [] => some acc
  | '_' :: c :: rest =>
      if c.isDigit then digitsRest (acc * 10 + digitVal c) rest else none
  | ['_'] => none
  | c :: rest =>
      if c.isDigit then digitsRest (acc * 10 + digitVal c) rest else none

/-- Parse a nonempty list of ASCII digits (with Python's single-underscore
grouping allowed) to its value. -/
def parseDigits : List Char → Option Nat
  | [] => none
  | c :: rest => if c.isDigit then digitsRest (digitVal c) rest else none

/-- Strip of leading and trailing whitespace, the first step of Python
int() on a string. -/
def pyStrip (l : List Char) : List Char :=
  ((l.dropWhile Char.isWhitespace).reverse.dropWhile Char.isWhitespace).reverse

/-- Model of Python int(s) for a string argument: strip surrounding
whitespace, allow one optional sign, then base-10 digits; anything else
raises ValueError, modelled as none. -/
def pyInt (s : String) : Option Int :=
  match pyStrip s.toList with
  | '+' :: rest => (parseDigits rest).map Int.ofNat
  | '-' :: rest => (parseDigits rest).map (fun n => -(n : Int))
  | l => (parseDigits l).map Int.ofNat

/-! ### price_conversion (seller.py lines 300-320) -/

/-- Model of Python str.split for a single-character separator:
"".split(".") is a one-element list holding the empty string. -/
def pySplit (sep : Char) : List Char → List (List Char)
  | [] => [[]]
  | c :: rest =>
    match pySplit sep rest with
    | [] => [[]]
    | h :: t => if c = sep then [] :: h :: t else (c :: h) :: t

/-- Model of price_conversion: re.sub of every non-digit with "" applied to
price.split(".")[0]. -/
def price_conversion (price : String) : String :=
  String.mk (((pySplit '.' price.toList).headD []).filter Char.isDigit)

/-! ### divide (seller.py lines 351-352) -/

/-- The chunks produced by the generator body for a positive step: the
iteration indices of range(0, len(lst), n) are 0, n, 2n, ... and each yields
the slice lst[i : i + n]. -/
def divideChunks {α : Type} (l : List α) (n : Nat) : List (List α) :=
  if h : l.isEmpty ∨ n = 0 then []
  else l.take n :: divideChunks (l.drop n) n
termination_by l.length
decreasing_by
  simp only [not_or, List.isEmpty_iff] at h
  have hn : 0 < n := Nat.pos_of_ne_zero h.2
  have hl : 0 < l.length := List.length_pos.mpr h.1
  simp only [List.length_drop]
  omega

/-- Model of list(divide(lst, n)).  Python's range raises ValueError on a
zero step; on a negative step range(0, len(lst), n) is empty (its start is
already at or past its stop), so the generator silently yields no chunks. -/
def divide {α : Type} (lst : List α) (n : Int) : Except PyErr (List (List α)) :=
  if n = 0 then .error .valueError
  else if n < 0 then .ok []
  else .ok (divideChunks lst n.toNat)

/-! ### Quantity resolution (seller.py lines 231-237, duplicated verbatim in
market.py lines 240-246) -/

/-- The quantity branch of both create_stocks variants: the sentinel string
">10" resolves to 100, the sentinel "1" to 0, anything else goes through
int(). -/
def resolveQuantity (count : String) : Except PyErr Int :=
  if count = ">10" then .ok 100
  else if count = "1" then .ok 0
  else
    match pyInt count with
    | some n => .ok n
    | none => .error .valueError

/-! ### seller.py create_stocks and create_prices -/

namespace Seller

/-- One entry of the stocks list built by seller.py create_stocks. -/
structure StockRecord where
  offer_id : String
  stock : Int
deriving DecidableEq, Repr

/-- The first loop of create_stocks, with the mutable offer_ids list made
explicit: rows whose kod is in the current list emit a record and remove
their kod (list.remove drops the first occurrence); the final list is
returned alongside the records. -/
def create_stocks_loop : List WatchRow → List String →
    Except PyErr (List StockRecord × List String)
  | [], ids => .ok ([], ids)
  | w :: rest, ids =>
    if w.kod ∈ ids then
      match resolveQuantity w.kolichestvo with
      | .error e => .error e
      | .ok q =>
        match create_stocks_loop rest (ids.erase w.kod) with
        | .error e => .error e
        | .ok (recs, ids2) => .ok (⟨w.kod, q⟩ :: recs, ids2)
    else create_stocks_loop rest ids

/-- Model of seller.py create_stocks: the matching loop followed by the
defaulting pass that appends a zero record for every identifier left in
offer_ids.  Returns the records together with the final state of the
caller's offer_ids list (the function mutates its argument in Python). -/
def create_stocks (watch_remnants : List WatchRow) (offer_ids : List String) :
    Except PyErr (List StockRecord × List String) :=
  match create_stocks_loop watch_remnants offer_ids with
  | .error e => .error e
  | .ok (matched, remaining) =>
      .ok (matched ++ remaining.map (fun i => ⟨i, 0⟩), remaining)

/-- One entry of the prices list built by seller.py create_prices; the
constant fields auto_action_enabled, currency_code and old_price are omitted
from the model, price holds the output of price_conversion. -/
structure PriceRecord where
  offer_id : String
  price : String
deriving DecidableEq, Repr

/-- The loop of seller.py create_prices with the offer_ids list threaded
through explicitly; the body only tests membership and never updates the
list. -/
def create_prices_loop : List WatchRow → List String →
    List PriceRecord × List String
  | [], ids => ([], ids)
  | w :: rest, ids =>
    if w.kod ∈ ids then
      match create_prices_loop rest ids with
      | (recs, ids2) => (⟨w.kod, price_conversion w.tsena⟩ :: recs, ids2)
    else create_prices_loop rest ids

/-- Model of seller.py create_prices. -/
def create_prices (watch_remnants : List WatchRow) (offer_ids : List String) :
    List PriceRecord :=
  (create_prices_loop watch_remnants offer_ids).1

end Seller

/-! ### market.py create_stocks and create_prices -/

namespace Market

/-- The single element of the items list of a Yandex.Market stock record. -/
structure StockItem where
  count : Int
  type : String
  updatedAt : String
deriving DecidableEq, Repr

/-- One entry of the stocks list built by market.py create_stocks. -/
structure StockRecord where
  sku : String
  warehouseId : String
  items : List StockItem
deriving DecidableEq, Repr

/-- The first loop of market.py create_stocks; date is the timestamp string
computed once from datetime.utcnow() before the loop starts. -/
def create_stocks_loop (date warehouse_id : String) :
    List WatchRow → List String → Except PyErr (List StockRecord × List String)
  | [], ids => .ok ([], ids)
  | w :: rest, ids =>
    if w.kod ∈ ids then
      match resolveQuantity w.kolichestvo with
      | .error e => .error e
      | .ok q =>
        match create_stocks_loop date warehouse_id rest (ids.erase w.kod) with
        | .error e => .error e
        | .ok (recs, ids2) =>
            .ok (⟨w.kod, warehouse_id, [⟨q, "FIT", date⟩]⟩ :: recs, ids2)
    else create_stocks_loop date warehouse_id rest ids

/-- Model of market.py create_stocks.  The date argument stands for the one
datetime.utcnow() call evaluated at the top of the function body; every
record, matched or defaulted, embeds this same string. -/
def create_stocks (date : String) (watch_remnants : List WatchRow)
    (offer_ids : List String) (warehouse_id : String) :
    Except PyErr (List StockRecord × List String) :=
  match create_stocks_loop date warehouse_id watch_remnants offer_ids with
  | .error e => .error e
  | .ok (matched, remaining) =>
      .ok (matched ++ remaining.map (fun i => ⟨i, warehouse_id, [⟨0, "FIT", date⟩]⟩),
           remaining)

/-- One entry of the prices list built by market.py create_prices; the value
field holds int(price_conversion(...)). -/
structure PriceRecord where
  id : String
  value : Int
  currencyId : String
deriving DecidableEq, Repr

/-- Model of market.py create_prices: unlike the Ozon variant it parses the
normalized price to an integer inside the loop, so an empty normalization
result raises ValueError during the reconciliation call itself. -/
def create_prices : List WatchRow → List String →
    Except PyErr (List PriceRecord)
  | [], _ => .ok []
  | w :: rest, ids =>
    if w.kod ∈ ids then
      match pyInt (price_conversion w.tsena) with
      | none => .error .valueError
      | some v =>
        match create_prices rest ids with
        | .error e => .error e
        | .ok recs => .ok (⟨w.kod, v, "RUR"⟩ :: recs)
    else create_prices rest ids

end Market

/-! ### Specification-side definitions -/

/-- Rendering of the matched pass exactly as the specification words it:
a row produces a record when its identifier is in the original identifier
set and no earlier row already produced a record for it (feed order, first
occurrence wins); used accumulates the identifiers already matched. -/
def specMatchedRows (ids0 : List String) :
    List WatchRow → List String → Except PyErr (List Seller.StockRecord)
  | [], _ => .ok []
  | w :: rest, used =>
    if w.kod ∈ ids0 ∧ w.kod ∉ used then
      match resolveQuantity w.kolichestvo with
      | .error e => .error e
      | .ok q =>
        match specMatchedRows ids0 rest (w.kod :: used) with
        | .error e => .error e
        | .ok recs => .ok (⟨w.kod, q⟩ :: recs)
    else specMatchedRows ids0 rest used

/-- Conversion from an Ozon stock record to the Yandex.Market record shape
for a fixed warehouse and timestamp. -/
def toMarketRecord (date warehouse_id : String) (r : Seller.StockRecord) :
    Market.StockRecord :=
  ⟨r.offer_id, warehouse_id, [⟨r.stock, "FIT", date⟩]⟩

/-- The first sample price string of the specification: digit 5, an
apostrophe (thousands separator), digits 990, then ".00 rub." with a
Cyrillic currency word. -/
def samplePriceA : String :=
  String.mk ['5', Char.ofNat 39, '9', '9', '0', '.', '0', '0', ' ',
    'р', 'у', 'б', '.']

/-- The third sample price string of the specification: 1, apostrophe,
234.56, currency suffix. -/
def samplePriceB : String :=
  String.mk ['1', Char.ofNat 39, '2', '3', '4', '.', '5', '6', ' ',
    'р', 'у', 'б', '.']

/-- A plain sample price with no thousands separator. -/
def onePrice : String := "1.00 руб."

instance {ε α : Type} [DecidableEq ε] [DecidableEq α] :
    DecidableEq (Except ε α) := fun a b =>
  match a, b with
  | .error e, .error f => decidable_of_iff (e = f) (by simp)
  | .error _, .ok _ => isFalse (by simp)
  | .ok _, .error _ => isFalse (by simp)
  | .ok x, .ok y => decidable_of_iff (x = y) (by simp)

/-! ### Lemmas about pySplit and price_conversion -/

lemma pySplit_ne_nil (sep : Char) (l : List Char) : pySplit sep l ≠ [] := by
  cases l with
  | nil => simp [pySplit]
  | cons c rest =>
    rw [pySplit]
    cases hp : pySplit sep rest with
    | nil => simp
    | cons h t => by_cases hc : c = sep <;> simp [hc]

lemma pySplit_headD (sep : Char) (l : List Char) :
    (pySplit sep l).headD [] = l.takeWhile (fun c => c != sep) := by
  induction l with
  | nil => rfl
  | cons c rest ih =>
    rw [pySplit]
    cases hp : pySplit sep rest with
    | nil => exact absurd hp (pySplit_ne_nil sep rest)
    | cons h t =>
      rw [hp] at ih
      by_cases hc : c = sep
      · subst hc
        simp [List.takeWhile_cons]
      · simp only [if_neg hc, List.headD_cons, List.takeWhile_cons]
        simp only [List.headD_cons] at ih
        simp [bne_iff_ne, hc, ih]

/-- The normalizer computes exactly what the specification says: truncate at
the first decimal point, then keep only ASCII digits. -/
lemma price_conversion_eq_takeWhile (s : String) :
    price_conversion s =
      String.mk ((s.toList.takeWhile (fun c => c != '.')).filter Char.isDigit) := by
  rw [price_conversion, pySplit_headD]

/-- A string with no ASCII digit before its first decimal point normalizes
to the empty string. -/
lemma price_conversion_eq_empty (s : String)
    (h : ∀ c ∈ s.toList.takeWhile (fun c => c != '.'), c.isDigit = false) :
    price_conversion s = "" := by
  rw [price_conversion_eq_takeWhile]
  have : (s.toList.takeWhile (fun c => c != '.')).filter Char.isDigit = [] := by
    rw [List.filter_eq_nil_iff]
    intro c hc
    simp [h c hc]
  rw [this]

/-! ### Lemmas about divideChunks -/

lemma divideChunks_nil {α : Type} (n : Nat) :
    divideChunks ([] : List α) n = [] := by
  rw [divideChunks]
  simp

lemma divideChunks_cons {α : Type} (l : List α) (n : Nat) (hl : l ≠ [])
    (hn : n ≠ 0) :
    divideChunks l n = l.take n :: divideChunks (l.drop n) n := by
  rw [divideChunks]
  rw [dif_neg]
  simp [List.isEmpty_iff, hl, hn]

lemma divideChunks_eq_nil_iff {α : Type} (l : List α) (n : Nat) :
    divideChunks l n = [] ↔ l = [] ∨ n = 0 := by
  constructor
  · intro h
    by_contra hc
    simp only [not_or] at hc
    rw [divideChunks_cons l n hc.1 hc.2] at h
    exact List.cons_ne_nil _ _ h
  · intro h
    rcases h with h | h
    · subst h; exact divideChunks_nil n
    · subst h; rw [divideChunks]; simp

lemma divideChunks_flatten {α : Type} (l : List α) (n : Nat) (hn : 0 < n) :
    (divideChunks l n).flatten = l := by
  induction l, n using divideChunks.induct with
  | case1 l n h =>
    rcases h with h | h
    · rw [List.isEmpty_iff] at h
      subst h
      rw [divideChunks_nil]
      rfl
    · omega
  | case2 l n h ih =>
    simp only [not_or, List.isEmpty_iff] at h
    rw [divideChunks_cons l n h.1 h.2, List.flatten_cons, ih hn]
    exact List.take_append_drop n l

lemma divideChunks_dropLast_length {α : Type} (l : List α) (n : Nat)
    (hn : 0 < n) : ∀ c ∈ (divideChunks l n).dropLast, c.length = n := by
  induction l, n using divideChunks.induct with
  | case1 l n h =>
    intro c hc
    rcases h with h | h
    · rw [List.isEmpty_iff] at h
      subst h
      rw [divideChunks_nil] at hc
      simp at hc
    · omega
  | case2 l n h ih =>
    simp only [not_or, List.isEmpty_iff] at h
    intro c hc
    rw [divideChunks_cons l n h.1 h.2] at hc
    cases hrest : divideChunks (l.drop n) n with
    | nil => rw [hrest] at hc; simp at hc
    | cons c0 cs =>
      rw [hrest, List.dropLast_cons_of_ne_nil (List.cons_ne_nil c0 cs)] at hc
      rcases List.mem_cons.mp hc with hc | hc
      · subst hc
        have hdrop : l.drop n ≠ [] := by
          intro hd
          rw [(divideChunks_eq_nil_iff _ _).mpr (Or.inl hd)] at hrest
          exact List.cons_ne_nil c0 cs hrest.symm
        have hlen : n < l.length := by
          by_contra hle
          exact hdrop (List.drop_eq_nil_of_le (by omega))
        simp [List.length_take]
        omega
      · exact ih hn c (hrest ▸ hc)

/-! ### Lemmas about the seller create_stocks loop -/

lemma create_stocks_loop_perm :
    ∀ (rows : List WatchRow) (ids recs rem : _),
      Seller.create_stocks_loop rows ids = .ok (recs, rem) →
      ((recs.map Seller.StockRecord.offer_id) ++ rem).Perm ids := by
  intro rows
  induction rows with
  | nil =>
    intro ids recs rem h
    simp only [Seller.create_stocks_loop, Except.ok.injEq, Prod.mk.injEq] at h
    obtain ⟨h1, h2⟩ := h
    subst h1
    subst h2
    simp
  | cons w rest ih =>
    intro ids recs rem h
    simp only [Seller.create_stocks_loop] at h
    by_cases hm : w.kod ∈ ids
    · rw [if_pos hm] at h
      cases hq : resolveQuantity w.kolichestvo with
      | error e => rw [hq] at h; simp at h
      | ok q =>
        rw [hq] at h
        cases hrec : Seller.create_stocks_loop rest (ids.erase w.kod) with
        | error e => rw [hrec] at h; simp at h
        | ok p =>
          obtain ⟨recs', ids2⟩ := p
          rw [hrec] at h
          simp only [Except.ok.injEq, Prod.mk.injEq] at h
          obtain ⟨h1, h2⟩ := h
          subst h1
          subst h2
          have ihp := ih _ _ _ hrec
          simp only [List.map_cons, List.cons_append]
          exact (ihp.cons w.kod).trans (List.perm_cons_erase hm).symm
    · rw [if_neg hm] at h
      exact ih ids recs rem h

lemma create_stocks_loop_rem_sublist :
    ∀ (rows : List WatchRow) (ids recs rem : _),
      Seller.create_stocks_loop rows ids = .ok (recs, rem) →
      rem.Sublist ids := by
  intro rows
  induction rows with
  | nil =>
    intro ids recs rem h
    simp only [Seller.create_stocks_loop, Except.ok.injEq, Prod.mk.injEq] at h
    rw [← h.2]
  | cons w rest ih =>
    intro ids recs rem h
    simp only [Seller.create_stocks_loop] at h
    by_cases hm : w.kod ∈ ids
    · rw [if_pos hm] at h
      cases hq : resolveQuantity w.kolichestvo with
      | error e => rw [hq] at h; simp at h
      | ok q =>
        rw [hq] at h
        cases hrec : Seller.create_stocks_loop rest (ids.erase w.kod) with
        | error e => rw [hrec] at h; simp at h
        | ok p =>
          obtain ⟨recs', ids2⟩ := p
          rw [hrec] at h
          simp only [Except.ok.injEq, Prod.mk.injEq] at h
          obtain ⟨h1, h2⟩ := h
          subst h2
          exact (ih _ _ _ hrec).trans
            (List.erase_sublist w.kod ids)
    · rw [if_neg hm] at h
      exact ih ids recs rem h

lemma create_stocks_loop_covers :
    ∀ (rows : List WatchRow) (ids recs rem : _),
      Seller.create_stocks_loop rows ids = .ok (recs, rem) →
      ∀ w ∈ rows, w.kod ∈ ids →
        w.kod ∈ recs.map Seller.StockRecord.offer_id := by
  intro rows
  induction rows with
  | nil =>
    intro ids recs rem h w hw
    simp at hw
  | cons w0 rest ih =>
    intro ids recs rem h w hw hkod
    simp only [Seller.create_stocks_loop] at h
    by_cases hm : w0.kod ∈ ids
    · rw [if_pos hm] at h
      cases hq : resolveQuantity w0.kolichestvo with
      | error e => rw [hq] at h; simp at h
      | ok q =>
        rw [hq] at h
        cases hrec : Seller.create_stocks_loop rest (ids.erase w0.kod) with
        | error e => rw [hrec] at h; simp at h
        | ok p =>
          obtain ⟨recs', ids2⟩ := p
          rw [hrec] at h
          simp only [Except.ok.injEq, Prod.mk.injEq] at h
          obtain ⟨h1, h2⟩ := h
          subst h1
          rcases List.mem_cons.mp hw with hw | hw
          · subst hw
            simp
          · by_cases hkk : w.kod = w0.kod
            · simp [hkk]
            · have hmem : w.kod ∈ ids.erase w0.kod :=
                (List.mem_erase_of_ne hkk).mpr hkod
              have := ih _ _ _ hrec w hw hmem
              simp only [List.map_cons, List.mem_cons]
              exact Or.inr this
    · rw [if_neg hm] at h
      rcases List.mem_cons.mp hw with hw | hw
      · subst hw
        exact absurd hkod hm
      · exact ih ids recs rem h w hw hkod

lemma create_stocks_loop_src :
    ∀ (rows : List WatchRow) (ids recs rem : _),
      Seller.create_stocks_loop rows ids = .ok (recs, rem) →
      ∀ r ∈ recs, ∃ w, w ∈ rows ∧ w.kod ∈ ids ∧ r.offer_id = w.kod ∧
        resolveQuantity w.kolichestvo = .ok r.stock := by
  intro rows
  induction rows with
  | nil =>
    intro ids recs rem h r hr
    simp only [Seller.create_stocks_loop, Except.ok.injEq, Prod.mk.injEq] at h
    rw [← h.1] at hr
    simp at hr
  | cons w0 rest ih =>
    intro ids recs rem h r hr
    simp only [Seller.create_stocks_loop] at h
    by_cases hm : w0.kod ∈ ids
    · rw [if_pos hm] at h
      cases hq : resolveQuantity w0.kolichestvo with
      | error e => rw [hq] at h; simp at h
      | ok q =>
        rw [hq] at h
        cases hrec : Seller.create_stocks_loop rest (ids.erase w0.kod) with
        | error e => rw [hrec] at h; simp at h
        | ok p =>
          obtain ⟨recs', ids2⟩ := p
          rw [hrec] at h
          simp only [Except.ok.injEq, Prod.mk.injEq] at h
          obtain ⟨h1, h2⟩ := h
          subst h1
          rcases List.mem_cons.mp hr with hr | hr
          · subst hr
            exact ⟨w0, List.mem_cons_self _ _, hm, rfl, hq⟩
          · obtain ⟨w, hw, hwm, he, hrq⟩ := ih _ _ _ hrec r hr
            exact ⟨w, List.mem_cons_of_mem _ hw,
              List.mem_of_mem_erase hwm, he, hrq⟩
    · rw [if_neg hm] at h
      obtain ⟨w, hw, hwm, he, hrq⟩ := ih ids recs rem h r hr
      exact ⟨w, List.mem_cons_of_mem _ hw, hwm, he, hrq⟩

/-! ### Lemmas about the seller create_prices loop -/

lemma create_prices_loop_snd :
    ∀ (rows : List WatchRow) (ids : List String),
      (Seller.create_prices_loop rows ids).2 = ids := by
  intro rows
  induction rows with
  | nil => intro ids; rfl
  | cons w rest ih =>
    intro ids
    simp only [Seller.create_prices_loop]
    by_cases hm : w.kod ∈ ids
    · rw [if_pos hm]
      have := ih ids
      rcases hp : Seller.create_prices_loop rest ids with ⟨recs, ids2⟩
      rw [hp] at this
      simpa using this
    · rw [if_neg hm]
      exact ih ids

lemma create_prices_loop_fst :
    ∀ (rows : List WatchRow) (ids : List String),
      (Seller.create_prices_loop rows ids).1 =
        (rows.filter (fun w => decide (w.kod ∈ ids))).map
          (fun w => ⟨w.kod, price_conversion w.tsena⟩) := by
  intro rows
  induction rows with
  | nil => intro ids; rfl
  | cons w rest ih =>
    intro ids
    simp only [Seller.create_prices_loop]
    by_cases hm : w.kod ∈ ids
    · rw [if_pos hm]
      rcases hp : Seller.create_prices_loop rest ids with ⟨recs, ids2⟩
      have := ih ids
      rw [hp] at this
      simp only at this
      simp [List.filter_cons, hm, ← this]
    · rw [if_neg hm]
      simp [List.filter_cons, hm, ih ids]

lemma create_stocks_loop_rem_filter :
    ∀ (rows : List WatchRow) (ids recs rem : _), ids.Nodup →
      Seller.create_stocks_loop rows ids = .ok (recs, rem) →
      rem = ids.filter
        (fun i => decide (i ∉ recs.map Seller.StockRecord.offer_id)) := by
  intro rows
  induction rows with
  | nil =>
    intro ids recs rem _ h
    simp only [Seller.create_stocks_loop, Except.ok.injEq, Prod.mk.injEq] at h
    obtain ⟨h1, h2⟩ := h
    subst h1
    subst h2
    simp
  | cons w rest ih =>
    intro ids recs rem hnd h
    simp only [Seller.create_stocks_loop] at h
    by_cases hm : w.kod ∈ ids
    · rw [if_pos hm] at h
      cases hq : resolveQuantity w.kolichestvo with
      | error e => rw [hq] at h; simp at h
      | ok q =>
        rw [hq] at h
        cases hrec : Seller.create_stocks_loop rest (ids.erase w.kod) with
        | error e => rw [hrec] at h; simp at h
        | ok p =>
          obtain ⟨recs', ids2⟩ := p
          rw [hrec] at h
          simp only [Except.ok.injEq, Prod.mk.injEq] at h
          obtain ⟨h1, h2⟩ := h
          subst h1
          subst h2
          have ihr := ih _ _ _ (hnd.erase w.kod) hrec
          rw [ihr, hnd.erase_eq_filter w.kod, List.filter_filter]
          apply List.filter_congr
          intro i _
          by_cases h1 : i = w.kod <;>
            by_cases h2 : i ∈ recs'.map Seller.StockRecord.offer_id <;>
            simp [h1, h2]
    · rw [if_neg hm] at h
      exact ih _ _ _ hnd h

lemma create_stocks_loop_fst_eq_spec :
    ∀ (rows : List WatchRow) (ids0 used : List String), ids0.Nodup →
      (Seller.create_stocks_loop rows
          (ids0.filter (fun i => decide (i ∉ used)))).map Prod.fst
        = specMatchedRows ids0 rows used := by
  intro rows
  induction rows with
  | nil => intro ids0 used _; rfl
  | cons w rest ih =>
    intro ids0 used hnd
    simp only [Seller.create_stocks_loop, specMatchedRows]
    by_cases hm : w.kod ∈ ids0 ∧ w.kod ∉ used
    · have hmem : w.kod ∈ ids0.filter (fun i => decide (i ∉ used)) := by
        simp only [List.mem_filter, decide_eq_true_eq]
        exact hm
      rw [if_pos hmem, if_pos hm]
      cases hq : resolveQuantity w.kolichestvo with
      | error e => simp [Except.map]
      | ok q =>
        have herase : (ids0.filter (fun i => decide (i ∉ used))).erase w.kod
            = ids0.filter (fun i => decide (i ∉ w.kod :: used)) := by
          rw [(hnd.filter _).erase_eq_filter w.kod, List.filter_filter]
          apply List.filter_congr
          intro i _
          by_cases h1 : i = w.kod <;> by_cases h2 : i ∈ used <;>
            simp [h1, h2]
        rw [herase, ← ih ids0 (w.kod :: used) hnd]
        cases hrec : Seller.create_stocks_loop rest
            (ids0.filter (fun i => decide (i ∉ w.kod :: used))) with
        | error e => simp [Except.map]
        | ok p =>
          obtain ⟨recs', ids2⟩ := p
          simp [Except.map]
    · have hmem : w.kod ∉ ids0.filter (fun i => decide (i ∉ used)) := by
        simp only [List.mem_filter, decide_eq_true_eq]
        exact hm
      rw [if_neg hmem, if_neg hm]
      exact ih ids0 used hnd

lemma create_stocks_loop_fst_eq_spec_start (rows : List WatchRow)
    (ids : List String) (hnd : ids.Nodup) :
    (Seller.create_stocks_loop rows ids).map Prod.fst
      = specMatchedRows ids rows [] := by
  have h := create_stocks_loop_fst_eq_spec rows ids [] hnd
  have hfil : ids.filter (fun i => decide (i ∉ ([] : List String))) = ids := by
    simp
  rw [hfil] at h
  exact h

/-! ### The Yandex.Market variant mirrors the Ozon variant record for
record -/

lemma market_create_stocks_loop_eq (date warehouse_id : String) :
    ∀ (rows : List WatchRow) (ids : List String),
      Market.create_stocks_loop date warehouse_id rows ids =
        (Seller.create_stocks_loop rows ids).map
          (fun p => (p.1.map (toMarketRecord date warehouse_id), p.2)) := by
  intro rows
  induction rows with
  | nil => intro ids; rfl
  | cons w rest ih =>
    intro ids
    simp only [Market.create_stocks_loop, Seller.create_stocks_loop]
    by_cases hm : w.kod ∈ ids
    · rw [if_pos hm, if_pos hm]
      cases hq : resolveQuantity w.kolichestvo with
      | error e => simp [Except.map]
      | ok q =>
        rw [ih (ids.erase w.kod)]
        cases hrec : Seller.create_stocks_loop rest (ids.erase w.kod) with
        | error e => simp [Except.map]
        | ok p =>
          obtain ⟨recs', ids2⟩ := p
          simp [Except.map, toMarketRecord]
    · rw [if_neg hm, if_neg hm]
      exact ih ids

lemma market_create_stocks_eq (date warehouse_id : String)
    (rows : List WatchRow) (ids : List String) :
    Market.create_stocks date rows ids warehouse_id =
      (Seller.create_stocks rows ids).map
        (fun p => (p.1.map (toMarketRecord date warehouse_id), p.2)) := by
  rw [Market.create_stocks, Seller.create_stocks,
    market_create_stocks_loop_eq date warehouse_id rows ids]
  cases h : Seller.create_stocks_loop rows ids with
  | error e => simp [Except.map]
  | ok p =>
    obtain ⟨matched, remaining⟩ := p
    simp [Except.map, toMarketRecord, Function.comp]

lemma create_prices_eq_filter_map (rows : List WatchRow) (ids : List String) :
    Seller.create_prices rows ids =
      (rows.filter (fun w => decide (w.kod ∈ ids))).map
        (fun w => ⟨w.kod, price_conversion w.tsena⟩) :=
  create_prices_loop_fst rows ids

/-- The market price reconciler succeeds exactly when every matched row's
normalized price parses as an integer, and then its output is the filtered
map of the feed with int-parsed values. -/
lemma market_create_prices_ok_iff :
    ∀ (rows : List WatchRow) (ids : List String)
      (recs : List Market.PriceRecord),
      Market.create_prices rows ids = .ok recs ↔
        ((∀ w ∈ rows, w.kod ∈ ids →
            (pyInt (price_conversion w.tsena)).isSome = true) ∧
         recs = (rows.filter (fun w => decide (w.kod ∈ ids))).map
           (fun w =>
             ⟨w.kod, (pyInt (price_conversion w.tsena)).getD 0, "RUR"⟩)) := by
  intro rows
  induction rows with
  | nil =>
    intro ids recs
    simp only [Market.create_prices, List.filter_nil, List.map_nil,
      List.not_mem_nil, false_implies, implies_true, true_and,
      Except.ok.injEq]
    exact eq_comm
  | cons w rest ih =>
    intro ids recs
    simp only [Market.create_prices]
    by_cases hm : w.kod ∈ ids
    · rw [if_pos hm]
      cases hp : pyInt (price_conversion w.tsena) with
      | none =>
        constructor
        · intro h
          simp at h
        · rintro ⟨hall, _⟩
          have hw := hall w (List.mem_cons_self _ _) hm
          rw [hp] at hw
          simp at hw
      | some v =>
        cases hrec : Market.create_prices rest ids with
        | error e =>
          constructor
          · intro h
            simp at h
          · rintro ⟨hall, _⟩
            have hrest : ∀ w2 ∈ rest, w2.kod ∈ ids →
                (pyInt (price_conversion w2.tsena)).isSome = true :=
              fun w2 hw2 => hall w2 (List.mem_cons_of_mem _ hw2)
            have hok := (ih ids ((rest.filter
                (fun w2 => decide (w2.kod ∈ ids))).map
                (fun w2 => ⟨w2.kod,
                  (pyInt (price_conversion w2.tsena)).getD 0, "RUR"⟩))).mpr
              ⟨hrest, rfl⟩
            rw [hrec] at hok
            simp at hok
        | ok recs2 =>
          have ihr := (ih ids recs2).mp hrec
          constructor
          · intro h
            simp only [Except.ok.injEq] at h
            subst h
            refine ⟨?_, ?_⟩
            · intro w2 hw2 hm2
              rcases List.mem_cons.mp hw2 with h1 | h1
              · subst h1
                rw [hp]
                rfl
              · exact ihr.1 w2 h1 hm2
            · rw [List.filter_cons_of_pos (by simpa using hm),
                List.map_cons, hp, ← ihr.2]
              rfl
          · rintro ⟨hall, hrecs⟩
            subst hrecs
            simp only [Except.ok.injEq]
            rw [List.filter_cons_of_pos (by simpa using hm),
              List.map_cons, hp, ← ihr.2]
            rfl
    · rw [if_neg hm]
      rw [ih ids recs]
      constructor
      · rintro ⟨hrest, hrecs⟩
        refine ⟨?_, ?_⟩
        · intro w2 hw2 hm2
          rcases List.mem_cons.mp hw2 with h1 | h1
          · subst h1
            exact absurd hm2 hm
          · exact hrest w2 h1 hm2
        · rw [List.filter_cons_of_neg (by simpa using hm)]
          exact hrecs
      · rintro ⟨hall, hrecs⟩
        refine ⟨fun w2 hw2 => hall w2 (List.mem_cons_of_mem _ hw2), ?_⟩
        rw [List.filter_cons_of_neg (by simpa using hm)] at hrecs
        exact hrecs

/-! ### Claim theorems -/

/-- C1 (amended: the marketplace identifier list is taken duplicate-free, as
it stands for the identifier set): on success, seller.py create_stocks
covers the identifier set exactly once -- the emitted identifiers are a
permutation of the set and each known identifier gets exactly one record --
and the output is the matched records (feed order, first occurrence wins,
exactly as specMatchedRows renders the specification text) followed by the
zero-quantity defaulted records in original identifier order minus the
removed entries; market.py create_stocks emits the same records reshaped
for Yandex.Market. -/
theorem c1_stock_reconciler_shape :
    (∀ (rows : List WatchRow) (ids recs rem : _), ids.Nodup →
      Seller.create_stocks rows ids = .ok (recs, rem) →
      (recs.map Seller.StockRecord.offer_id).Perm ids ∧
      (∀ i ∈ ids, (recs.map Seller.StockRecord.offer_id).count i = 1) ∧
      ∃ M, specMatchedRows ids rows [] = .ok M ∧
        recs = M ++ rem.map (fun i => ⟨i, 0⟩) ∧
        rem = ids.filter
          (fun i => decide (i ∉ M.map Seller.StockRecord.offer_id)) ∧
        rem.Sublist ids) ∧
    (∀ (date warehouse_id : String) (rows : List WatchRow) (ids : List String),
      Market.create_stocks date rows ids warehouse_id =
        (Seller.create_stocks rows ids).map
          (fun p => (p.1.map (toMarketRecord date warehouse_id), p.2))) := by
  constructor
  · intro rows ids recs rem hnd hok
    rw [Seller.create_stocks] at hok
    cases hl : Seller.create_stocks_loop rows ids with
    | error e => rw [hl] at hok; simp at hok
    | ok p =>
      obtain ⟨M, remaining⟩ := p
      rw [hl] at hok
      simp only [Except.ok.injEq, Prod.mk.injEq] at hok
      obtain ⟨h1, h2⟩ := hok
      subst h2
      subst h1
      have hperm0 := create_stocks_loop_perm rows ids M remaining hl
      have hmap : ((M ++ remaining.map
            fun i => (⟨i, 0⟩ : Seller.StockRecord)).map
          Seller.StockRecord.offer_id)
          = M.map Seller.StockRecord.offer_id ++ remaining := by
        simp only [List.map_append, List.map_map]
        rw [show (Seller.StockRecord.offer_id ∘ fun i =>
          (⟨i, 0⟩ : Seller.StockRecord)) = id by funext i; rfl, List.map_id]
      refine ⟨?_, ?_, M, ?_, rfl, ?_, ?_⟩
      · rw [hmap]
        exact hperm0
      · intro i hi
        rw [hmap, hperm0.count_eq i]
        exact List.count_eq_one_of_mem hnd hi
      · have hspec := create_stocks_loop_fst_eq_spec_start rows ids hnd
        rw [hl] at hspec
        exact hspec.symm
      · exact create_stocks_loop_rem_filter rows ids M remaining hnd hl
      · exact create_stocks_loop_rem_sublist rows ids M remaining hl
  · exact market_create_stocks_eq

/-- C1 as literally stated (quantified over every identifier list) is false:
when the identifier list contains a duplicate, the defaulting pass emits one
record per list entry, so identifier A receives two records rather than
exactly one. -/
theorem c1_counterexample :
    ∃ p, Seller.create_stocks ([] : List WatchRow) ["A", "A"] = .ok p ∧
      (p.1.map Seller.StockRecord.offer_id).count "A" = 2 :=
  ⟨([⟨"A", 0⟩, ⟨"A", 0⟩], ["A", "A"]), by decide, by decide⟩

/-- Witness for C1 at the specification's own test vector: feed row 123 with
quantity 5 against identifier set 123, 456. -/
theorem c1_witness :
    ∃ p, Seller.create_stocks [⟨"123", "5", ""⟩] ["123", "456"] = .ok p ∧
      (p.1.map Seller.StockRecord.offer_id).Perm ["123", "456"] := by
  refine ⟨([⟨"123", 5⟩, ⟨"456", 0⟩], ["456"]), by decide, ?_⟩
  exact (c1_stock_reconciler_shape.1 [⟨"123", "5", ""⟩] ["123", "456"]
    [⟨"123", 5⟩, ⟨"456", 0⟩] ["456"] (by decide) (by decide)).1

/-- C2: the quantity string of a matched row resolves by the two-sentinel
rule -- the literal string with a greater-than sign and 10 gives 100, the
literal "1" gives 0, anything else goes through Python int() -- and a
matched row whose quantity is neither sentinel nor a valid integer string
makes the whole create_stocks call fail with ValueError, producing no
records. -/
theorem c2_quantity_rule :
    resolveQuantity ">10" = .ok 100 ∧
    resolveQuantity "1" = .ok 0 ∧
    (∀ s : String, s ≠ ">10" → s ≠ "1" →
      resolveQuantity s = (match pyInt s with
        | some n => Except.ok n
        | none => Except.error PyErr.valueError)) ∧
    (∀ (w : WatchRow) (rows : List WatchRow) (ids : List String),
      w.kod ∈ ids → resolveQuantity w.kolichestvo = .error PyErr.valueError →
      Seller.create_stocks (w :: rows) ids = .error PyErr.valueError) ∧
    Seller.create_stocks [⟨"123", "abc", ""⟩] ["123"]
      = .error PyErr.valueError := by
  refine ⟨rfl, rfl, ?_, ?_, by decide⟩
  · intro s h1 h2
    rw [resolveQuantity, if_neg h1, if_neg h2]
  · intro w rows ids hm he
    have hl : Seller.create_stocks_loop (w :: rows) ids
        = .error PyErr.valueError := by
      simp only [Seller.create_stocks_loop]
      rw [if_pos hm, he]
    rw [Seller.create_stocks, hl]

/-- Witness for C2: an ordinary numeric quantity resolves through int(),
and a matched row with a non-numeric quantity fails the whole call. -/
theorem c2_witness :
    resolveQuantity "7" = .ok 7 ∧
    Seller.create_stocks [⟨"A", "xy", ""⟩] ["A", "B"]
      = .error PyErr.valueError := by
  constructor
  · have h := c2_quantity_rule.2.2.1 "7" (by decide) (by decide)
    rw [h]
    decide
  · exact c2_quantity_rule.2.2.2.1 ⟨"A", "xy", ""⟩ [] ["A", "B"]
      (by decide) (by decide)

/-- C3 as stated (every successful call yields only non-negative
quantities, for every row list) is false: Python int() accepts a signed
integer string, so a matched row with quantity "-5" succeeds and emits a
record with stock -5. -/
theorem c3_counterexample :
    ∃ p, Seller.create_stocks [⟨"A", "-5", ""⟩] ["A"] = .ok p ∧
      ∃ r ∈ p.1, r.stock < 0 :=
  ⟨([⟨"A", -5⟩], []), by decide, ⟨"A", -5⟩, by decide, by decide⟩

/-- C3 (amended: provided no matched row's quantity string resolves to a
negative integer -- the hypothesis ranges only over rows whose identifier
is in the identifier set, since only those can match; rows with unknown
identifiers are unconstrained): every record of a successful create_stocks
call has a non-negative stock; sentinel-resolved and defaulted records are
non-negative unconditionally. -/
theorem c3_amended_nonneg (rows : List WatchRow) (ids recs rem : _)
    (hok : Seller.create_stocks rows ids = .ok (recs, rem))
    (hq : ∀ w ∈ rows, w.kod ∈ ids → ∀ q : Int,
      resolveQuantity w.kolichestvo = .ok q → 0 ≤ q) :
    ∀ r ∈ recs, 0 ≤ r.stock := by
  rw [Seller.create_stocks] at hok
  cases hl : Seller.create_stocks_loop rows ids with
  | error e => rw [hl] at hok; simp at hok
  | ok p =>
    obtain ⟨M, remaining⟩ := p
    rw [hl] at hok
    simp only [Except.ok.injEq, Prod.mk.injEq] at hok
    obtain ⟨h1, h2⟩ := hok
    subst h1
    intro r hr
    rcases List.mem_append.mp hr with hr | hr
    · obtain ⟨w, hw, hwm, he, hrq⟩ :=
        create_stocks_loop_src rows ids M remaining hl r hr
      exact hq w hw hwm r.stock hrq
    · obtain ⟨i, hi, he⟩ := List.mem_map.mp hr
      subst he
      exact Int.le_refl 0

/-- Witness for C3 at a feed holding a matched sentinel row and an
unmatched row whose quantity parses negative: the unmatched row is outside
the hypothesis, and the matched record still has non-negative stock. -/
theorem c3_witness : (0 : Int) ≤ (⟨"A", 100⟩ : Seller.StockRecord).stock := by
  have h := c3_amended_nonneg [⟨"A", ">10", ""⟩, ⟨"X", "-3", ""⟩] ["A", "B"]
    [⟨"A", 100⟩, ⟨"B", 0⟩] ["B"] (by decide) ?_
  · exact h ⟨"A", 100⟩ (by decide)
  · intro w hw hmem q hqe
    rcases List.mem_cons.mp hw with h1 | h1
    · subst h1
      rw [show resolveQuantity (⟨"A", ">10", ""⟩ : WatchRow).kolichestvo
        = Except.ok 100 by decide] at hqe
      simp only [Except.ok.injEq] at hqe
      omega
    · simp only [List.mem_singleton] at h1
      subst h1
      exact absurd hmem (by decide)

/-- C4: for every list s and chunk size n greater than zero, divide
succeeds, concatenating its chunks reproduces s exactly, every chunk except
possibly the last has length exactly n, and the empty list yields zero
chunks. -/
theorem c4_divide_roundtrip {α : Type} (s : List α) (n : Int) (h : 0 < n) :
    ∃ cs, divide s n = .ok cs ∧
      cs.flatten = s ∧
      (∀ c ∈ cs.dropLast, c.length = n.toNat) ∧
      (s = [] → cs = []) := by
  refine ⟨divideChunks s n.toNat, ?_, ?_, ?_, ?_⟩
  · rw [divide, if_neg (by omega), if_neg (by omega)]
  · exact divideChunks_flatten s n.toNat (by omega)
  · exact divideChunks_dropLast_length s n.toNat (by omega)
  · intro hs
    subst hs
    exact divideChunks_nil n.toNat

/-- Witness for C4 at the docstring example: divide([1,2,3,4,5], 2). -/
theorem c4_witness :
    ∃ cs, divide [1, 2, 3, 4, 5] (2 : Int) = .ok cs ∧
      cs.flatten = [1, 2, 3, 4, 5] ∧
      (∀ c ∈ cs.dropLast, c.length = (2 : Int).toNat) ∧
      ([1, 2, 3, 4, 5] = ([] : List Nat) → cs = []) :=
  c4_divide_roundtrip [1, 2, 3, 4, 5] 2 (by decide)

/-- C5 is false as stated: the generator raises ValueError for a zero chunk
size (range rejects a zero step), but for a negative chunk size
range(0, len(lst), n) is empty, so the call silently yields zero chunks
instead of failing, contradicting both the claim and the function's own
docstring. -/
theorem c5_divide_nonpositive_behavior :
    divide [1, 2, 3] (0 : Int) = .error PyErr.valueError ∧
    divide [1, 2, 3] (-1 : Int) = .ok [] :=
  ⟨rfl, rfl⟩

/-- C6: price_conversion returns its input truncated at the first decimal
point with every non-ASCII-digit character deleted (it is a total function,
so it never raises), and it maps the three sample inputs of the
specification as stated. -/
theorem c6_price_normalizer :
    (∀ s : String, price_conversion s =
      String.mk ((s.toList.takeWhile (fun c => c != '.')).filter
        Char.isDigit)) ∧
    price_conversion samplePriceA = "5990" ∧
    price_conversion "" = "" ∧
    price_conversion samplePriceB = "1234" :=
  ⟨price_conversion_eq_takeWhile, by decide, rfl, by decide⟩

/-- C7 as literally stated (a record is emitted for every matched feed row,
for every input) is false for the Yandex.Market variant named in its
sources: a matched row whose price normalizes to the empty string makes
market.py create_prices raise ValueError inside the call, so no record is
emitted for that matched row -- the input below is the variant's own
docstring example. -/
theorem c7_counterexample :
    Market.create_prices [⟨"P", "", "некорректная"⟩] ["P"]
      = .error PyErr.valueError := by
  decide

/-- C7 (amended: for the Ozon variant unconditionally; for the
Yandex.Market variant on success): seller.py create_prices emits, in feed
order, exactly one record per feed row whose identifier is in the
identifier set (the filtered map of the feed); rows with unknown
identifiers are skipped, and identifiers in the set with no feed row
produce no record, unlike the Stock Reconciler; the specification's own
test vector yields exactly one record for 123.  market.py create_prices
succeeds exactly when every matched row's normalized price parses as an
integer, and then emits the same filtered feed in order with int-parsed
values; otherwise the call fails and emits no records. -/
theorem c7_price_reconciler :
    (∀ (rows : List WatchRow) (ids : List String),
      Seller.create_prices rows ids =
        (rows.filter (fun w => decide (w.kod ∈ ids))).map
          (fun w => ⟨w.kod, price_conversion w.tsena⟩)) ∧
    (∀ (rows : List WatchRow) (ids : List String) (r : Seller.PriceRecord),
      r ∈ Seller.create_prices rows ids →
        r.offer_id ∈ ids ∧ ∃ w ∈ rows, w.kod = r.offer_id) ∧
    (∀ (rows : List WatchRow) (ids : List String) (i : String),
      i ∈ ids → (∀ w ∈ rows, w.kod ≠ i) →
      ∀ r ∈ Seller.create_prices rows ids, r.offer_id ≠ i) ∧
    Seller.create_prices
      [⟨"123", "", samplePriceA⟩, ⟨"999", "", onePrice⟩] ["123"]
      = [⟨"123", "5990"⟩] ∧
    (∀ (rows : List WatchRow) (ids : List String)
      (recs : List Market.PriceRecord),
      Market.create_prices rows ids = .ok recs ↔
        ((∀ w ∈ rows, w.kod ∈ ids →
            (pyInt (price_conversion w.tsena)).isSome = true) ∧
         recs = (rows.filter (fun w => decide (w.kod ∈ ids))).map
           (fun w =>
             ⟨w.kod, (pyInt (price_conversion w.tsena)).getD 0, "RUR"⟩))) := by
  refine ⟨create_prices_eq_filter_map, ?_, ?_, by decide,
    market_create_prices_ok_iff⟩
  · intro rows ids r hr
    rw [create_prices_eq_filter_map] at hr
    obtain ⟨w, hw, he⟩ := List.mem_map.mp hr
    obtain ⟨hwr, hwp⟩ := List.mem_filter.mp hw
    subst he
    refine ⟨?_, w, hwr, rfl⟩
    simpa using hwp
  · intro rows ids i hi hno r hr hri
    rw [create_prices_eq_filter_map] at hr
    obtain ⟨w, hw, he⟩ := List.mem_map.mp hr
    obtain ⟨hwr, _⟩ := List.mem_filter.mp hw
    subst he
    exact hno w hwr hri

/-- Witness for C7: identifier 456 is in the set but absent from the feed,
so the record emitted for the one feed row does not carry it; and the
Yandex.Market variant succeeds on the same feed, emitting the int-parsed
record. -/
theorem c7_witness :
    (⟨"123", "5990"⟩ : Seller.PriceRecord).offer_id ≠ "456" ∧
    Market.create_prices [⟨"123", "", samplePriceA⟩] ["123"]
      = .ok [⟨"123", 5990, "RUR"⟩] := by
  constructor
  · have h := c7_price_reconciler.2.2.1 [⟨"123", "", samplePriceA⟩]
      ["123", "456"] "456" (by decide) (by decide)
    exact h ⟨"123", "5990"⟩ (by decide)
  · exact (c7_price_reconciler.2.2.2.2 [⟨"123", "", samplePriceA⟩] ["123"]
      [⟨"123", 5990, "RUR"⟩]).mpr ⟨by decide, by decide⟩

/-- C8: seller.py create_prices never changes the offer_ids list it is
given -- the threaded list is returned identical for every input -- while
create_stocks removes every matched identifier from it: on a duplicate-free
identifier list the final list is a sublist of the original from which
every matched identifier is gone, and on the specification's test vector
the list shrinks from two entries to one. -/
theorem c8_price_reconciler_frame :
    (∀ (rows : List WatchRow) (ids : List String),
      (Seller.create_prices_loop rows ids).2 = ids) ∧
    (∀ (rows : List WatchRow) (ids recs rem : _), ids.Nodup →
      Seller.create_stocks rows ids = .ok (recs, rem) →
      rem.Sublist ids ∧ ∀ w ∈ rows, w.kod ∈ ids → w.kod ∉ rem) ∧
    Seller.create_stocks [⟨"123", "5", ""⟩] ["123", "456"]
      = .ok ([⟨"123", 5⟩, ⟨"456", 0⟩], ["456"]) ∧
    (["456"] : List String) ≠ ["123", "456"] := by
  refine ⟨create_prices_loop_snd, ?_, by decide, by decide⟩
  intro rows ids recs rem hnd hok
  rw [Seller.create_stocks] at hok
  cases hl : Seller.create_stocks_loop rows ids with
  | error e => rw [hl] at hok; simp at hok
  | ok p =>
    obtain ⟨M, remaining⟩ := p
    rw [hl] at hok
    simp only [Except.ok.injEq, Prod.mk.injEq] at hok
    obtain ⟨h1, h2⟩ := hok
    subst h2
    constructor
    · exact create_stocks_loop_rem_sublist rows ids M remaining hl
    · intro w hw hmem
      have hcov := create_stocks_loop_covers rows ids M remaining hl w hw hmem
      rw [create_stocks_loop_rem_filter rows ids M remaining hnd hl]
      intro hcontra
      obtain ⟨_, hdec⟩ := List.mem_filter.mp hcontra
      simp only [decide_eq_true_eq] at hdec
      exact hdec hcov

/-- Witness for C8: on the test vector, matched identifier 123 is no longer
in the working list afterwards. -/
theorem c8_witness : ("123" : String) ∉ (["456"] : List String) := by
  have h := c8_price_reconciler_frame.2.1 [⟨"123", "5", ""⟩] ["123", "456"]
    [⟨"123", 5⟩, ⟨"456", 0⟩] ["456"] (by decide) (by decide)
  exact h.2 ⟨"123", "5", ""⟩ (by decide) (by decide)

/-- C9 as stated is false for the Yandex.Market variant: a matched feed row
whose price has no ASCII digit before the first decimal point normalizes to
the empty string, and market.py create_prices parses that string with int()
inside the reconciliation call, so the call itself fails rather than only a
later step. -/
theorem c9_counterexample :
    price_conversion "руб." = "" ∧
    Market.create_prices [⟨"A", "", "руб."⟩] ["A"]
      = .error PyErr.valueError := by
  constructor <;> decide

/-- C9 (amended): a price string with no ASCII digit before its first
decimal point always normalizes to the empty string; the Ozon reconciler
(seller.py create_prices) tolerates the empty result and emits the record
with an empty price, failing only downstream, while the Yandex.Market
reconciler (market.py create_prices) parses the price inside the call, so
the reconciliation call itself fails with ValueError on such a row. -/
theorem c9_amended_empty_normalization :
    (∀ s : String,
      (∀ c ∈ s.toList.takeWhile (fun c => c != '.'), c.isDigit = false) →
      price_conversion s = "") ∧
    (∀ (w : WatchRow) (rows : List WatchRow) (ids : List String),
      w.kod ∈ ids → price_conversion w.tsena = "" →
      Seller.create_prices (w :: rows) ids =
        ⟨w.kod, ""⟩ :: Seller.create_prices rows ids) ∧
    (∀ (w : WatchRow) (rows : List WatchRow) (ids : List String),
      w.kod ∈ ids → price_conversion w.tsena = "" →
      Market.create_prices (w :: rows) ids = .error PyErr.valueError) := by
  refine ⟨price_conversion_eq_empty, ?_, ?_⟩
  · intro w rows ids hm hpc
    rw [create_prices_eq_filter_map, create_prices_eq_filter_map]
    simp [List.filter_cons, hm, hpc]
  · intro w rows ids hm hpc
    simp only [Market.create_prices]
    rw [if_pos hm, hpc]
    rfl

/-- Witness for C9: a matched row with price "x." makes the Yandex.Market
reconciliation call fail. -/
theorem c9_witness :
    Market.create_prices [⟨"B", "", "x."⟩] ["B"] = .error PyErr.valueError :=
  c9_amended_empty_normalization.2.2 ⟨"B", "", "x."⟩ [] ["B"]
    (by decide) (by decide)

/-- C10: every stock record of a successful market.py create_stocks call,
matched or defaulted, carries the timestamp string computed once at the
start of the call in its items entries. -/
theorem c10_market_same_timestamp (date warehouse_id : String)
    (rows : List WatchRow) (ids : List String) (recs rem : _)
    (hok : Market.create_stocks date rows ids warehouse_id = .ok (recs, rem)) :
    ∀ r ∈ recs, ∀ it ∈ r.items, it.updatedAt = date := by
  rw [market_create_stocks_eq] at hok
  cases hs : Seller.create_stocks rows ids with
  | error e => rw [hs] at hok; simp [Except.map] at hok
  | ok p =>
    rw [hs] at hok
    simp only [Except.map, Except.ok.injEq, Prod.mk.injEq] at hok
    obtain ⟨h1, h2⟩ := hok
    intro r hr
    rw [← h1] at hr
    obtain ⟨s, hsm, he⟩ := List.mem_map.mp hr
    subst he
    intro it hit
    simp only [toMarketRecord, List.mem_singleton] at hit
    subst hit
    rfl

/-- Witness for C10 at the test vector with timestamp "D". -/
theorem c10_witness : (⟨5, "FIT", "D"⟩ : Market.StockItem).updatedAt = "D" := by
  have h := c10_market_same_timestamp "D" "W" [⟨"123", "5", ""⟩]
    ["123", "456"]
    [⟨"123", "W", [⟨5, "FIT", "D"⟩]⟩, ⟨"456", "W", [⟨0, "FIT", "D"⟩]⟩]
    ["456"] (by decide)
  exact h ⟨"123", "W", [⟨5, "FIT", "D"⟩]⟩ (by decide) ⟨5, "FIT", "D"⟩
    (by decide)

end SellerApis
